import Mathlib

/-!
Verification of the Flow repository: a classical Coulomb-gas free-energy
estimator with two inference engines (a change-of-variables variational
model and a batched Metropolis sampler), embedded shallowly in Lean.

Real-valued array code (`jax.numpy` on float64) is embedded over `ℝ`;
the acceptance-width controller, which is pure literal arithmetic, is
embedded over `ℚ` so that its trace is decidable; the nonnegative energy
evaluated at a coincident pair is additionally embedded over `ℝ≥0∞`,
whose `1 / 0 = ⊤` mirrors IEEE-754 division of a positive number by
zero producing `+inf`.
-/

noncomputable section

open Finset

/-- A particle configuration: `n` particles in `dim` dimensions, an
`n × dim` real matrix, as in the notebooks (`x` of shape `(n, dim)`). -/
def Config (n dim : ℕ) : Type := Fin n → Fin dim → ℝ

/-- Embeds `jnp.sum(x**2)`: the confinement term of `energy_fn`. -/
def sqNorm {n dim : ℕ} (x : Config n dim) : ℝ :=
  ∑ i, ∑ d, (x i d) ^ 2

/-- Embeds `jnp.linalg.norm(x[i] - x[j])`: the Euclidean distance
between particles `i` and `j` of configuration `x`. -/
def pairDist {n dim : ℕ} (x : Config n dim) (i j : Fin n) : ℝ :=
  Real.sqrt (∑ d, (x i d - x j d) ^ 2)

/-- Embeds `jnp.triu_indices(n, k=1)`: the ordered index pairs strictly
above the diagonal, i.e. `(i, j)` with `i < j`. -/
def triuPairs (n : ℕ) : Finset (Fin n × Fin n) :=
  Finset.univ.filter fun p => p.1 < p.2

/-- Embeds `energy_fn(x, n, dim)` from both notebooks:
`jnp.sum(x**2) + jnp.sum(1/rij)` where `rij` ranges over the distances
at the `triu_indices(n, k=1)` pairs. -/
def energy_fn (n dim : ℕ) (x : Config n dim) : ℝ :=
  sqNorm x + ∑ p ∈ triuPairs n, 1 / pairDist x p.1 p.2

/-- The distance is symmetric in the two particles. -/
theorem pairDist_comm {n dim : ℕ} (x : Config n dim) (i j : Fin n) :
    pairDist x i j = pairDist x j i := by
  unfold pairDist
  congr 1
  exact Finset.sum_congr rfl fun d _ => by ring

/-- Membership in the strict-upper-triangle pair set. -/
theorem mem_triuPairs {n : ℕ} {p : Fin n × Fin n} :
    p ∈ triuPairs n ↔ p.1 < p.2 := by
  simp [triuPairs]

/-- The strictly-lower-triangle pairs, the complement of `triuPairs`
inside the off-diagonal ordered pairs. -/
def lowPairs (n : ℕ) : Finset (Fin n × Fin n) :=
  Finset.univ.filter fun p => p.2 < p.1

/-- Swapping components is a bijection between the lower and upper
strict triangles, so they have the same cardinality. -/
theorem lowPairs_card (n : ℕ) : (lowPairs n).card = (triuPairs n).card := by
  apply Finset.card_nbij' (fun p => (p.2, p.1)) (fun p => (p.2, p.1))
  · intro p hp
    simp only [lowPairs, Finset.mem_filter, Finset.mem_univ, true_and] at hp
    exact mem_triuPairs.mpr hp
  · intro p hp
    simp only [lowPairs, Finset.mem_filter, Finset.mem_univ, true_and]
    exact mem_triuPairs.mp hp
  · intro p _; rfl
  · intro p _; rfl

/-- The off-diagonal ordered pairs split into the upper and lower strict
triangles. -/
theorem offDiag_eq_triu_union_low (n : ℕ) :
    (Finset.univ.offDiag : Finset (Fin n × Fin n)) = triuPairs n ∪ lowPairs n := by
  ext p
  simp only [Finset.mem_offDiag, Finset.mem_union, Finset.mem_filter,
    Finset.mem_univ, true_and, triuPairs, lowPairs]
  constructor
  · intro hne
    exact lt_or_gt_of_ne hne
  · intro h hEq
    rcases h with h | h
    · exact absurd hEq (ne_of_lt h)
    · exact absurd hEq (ne_of_gt h)

/-- The upper and lower strict triangles are disjoint. -/
theorem triu_disjoint_low (n : ℕ) : Disjoint (triuPairs n) (lowPairs n) := by
  rw [Finset.disjoint_left]
  intro p hp hq
  have h1 := mem_triuPairs.mp hp
  have h2 := (Finset.mem_filter.mp hq).2
  exact absurd h1 (not_lt.mpr h2.le)

/-- The strict upper triangle has `n*(n-1)/2` elements. -/
theorem triuPairs_card (n : ℕ) : (triuPairs n).card = n * (n - 1) / 2 := by
  have h2 : 2 * (triuPairs n).card = n * n - n := by
    have hsplit :
        (Finset.univ.offDiag : Finset (Fin n × Fin n)).card
          = (triuPairs n).card + (lowPairs n).card := by
      rw [offDiag_eq_triu_union_low, Finset.card_union_of_disjoint (triu_disjoint_low n)]
    have hoff : (Finset.univ.offDiag : Finset (Fin n × Fin n)).card = n * n - n := by
      rw [Finset.offDiag_card]
      simp
    rw [lowPairs_card] at hsplit
    omega
  have hmul : n * (n - 1) = n * n - n := by
    rcases n with _ | m
    · rfl
    · calc (m + 1) * (m + 1 - 1) = (m + 1) * m := by rw [Nat.add_sub_cancel]
        _ = (m + 1) * m + (m + 1) - (m + 1) := by rw [Nat.add_sub_cancel]
        _ = (m + 1) * (m + 1) - (m + 1) := by rw [Nat.mul_succ]
  omega

/-- No self-pair is ever enumerated. -/
theorem triuPairs_no_diag {n : ℕ} {p : Fin n × Fin n} (hp : p ∈ triuPairs n) :
    p.1 ≠ p.2 :=
  ne_of_lt (mem_triuPairs.mp hp)

/-- The interaction sum over the strict upper triangle equals half the
sum over all ordered pairs of distinct particles: each unordered pair is
counted exactly once. -/
theorem interaction_eq_half_offDiag {n dim : ℕ} (x : Config n dim) :
    2 * ∑ p ∈ triuPairs n, 1 / pairDist x p.1 p.2
      = ∑ p ∈ (Finset.univ : Finset (Fin n)).offDiag, 1 / pairDist x p.1 p.2 := by
  have hlow : ∑ p ∈ lowPairs n,
      1 / pairDist x p.1 p.2 = ∑ p ∈ triuPairs n, 1 / pairDist x p.1 p.2 := by
    apply Finset.sum_nbij' (fun p => (p.2, p.1)) (fun p => (p.2, p.1))
    · intro p hp
      simp only [lowPairs, Finset.mem_filter, Finset.mem_univ, true_and] at hp
      exact mem_triuPairs.mpr hp
    · intro p hp
      simp only [lowPairs, Finset.mem_filter, Finset.mem_univ, true_and]
      exact mem_triuPairs.mp hp
    · intro p _; rfl
    · intro p _; rfl
    · intro p _
      exact congrArg (fun t => 1 / t) (pairDist_comm x p.1 p.2)
  rw [offDiag_eq_triu_union_low, Finset.sum_union (triu_disjoint_low n), hlow]
  ring

/-- C1: for every configuration, the energy evaluator returns the sum of
squared coordinates plus the sum, over exactly the `n*(n-1)/2` unordered
pairs `i < j`, of reciprocal pairwise distances; equivalently half the
sum over all ordered distinct pairs; and the pair enumeration
structurally contains no self-pair. -/
theorem energy_fn_spec (n dim : ℕ) (x : Config n dim) :
    energy_fn n dim x
        = (∑ i, ∑ d, (x i d) ^ 2) + ∑ p ∈ triuPairs n, 1 / pairDist x p.1 p.2
      ∧ energy_fn n dim x
        = sqNorm x
          + (∑ p ∈ (Finset.univ : Finset (Fin n)).offDiag,
              1 / pairDist x p.1 p.2) / 2
      ∧ (triuPairs n).card = n * (n - 1) / 2
      ∧ ∀ p ∈ triuPairs n, p.1 ≠ p.2 := by
  refine ⟨rfl, ?_, triuPairs_card n, fun p hp => triuPairs_no_diag hp⟩
  unfold energy_fn
  rw [← interaction_eq_half_offDiag]
  ring

/-- Interaction sums over the off-diagonal pairs are invariant under a
simultaneous permutation of both indices. -/
theorem offDiag_sum_perm {n dim : ℕ} (x : Config n dim) (σ : Equiv.Perm (Fin n)) :
    ∑ p ∈ (Finset.univ : Finset (Fin n)).offDiag,
        1 / pairDist (fun i => x (σ i)) p.1 p.2
      = ∑ p ∈ (Finset.univ : Finset (Fin n)).offDiag, 1 / pairDist x p.1 p.2 := by
  apply Finset.sum_nbij' (fun p => (σ p.1, σ p.2)) (fun p => (σ.symm p.1, σ.symm p.2))
  · intro p hp
    rw [Finset.mem_offDiag] at hp ⊢
    exact ⟨Finset.mem_univ _, Finset.mem_univ _, σ.injective.ne hp.2.2⟩
  · intro p hp
    rw [Finset.mem_offDiag] at hp ⊢
    exact ⟨Finset.mem_univ _, Finset.mem_univ _, σ.symm.injective.ne hp.2.2⟩
  · intro p _
    simp
  · intro p _
    simp
  · intro p _
    rfl

/-- Concrete test configuration for translation sensitivity: two
particles on a line at positions `0` and `1`. -/
def xLine : Config 2 1 := fun i _ => (i.val : ℝ)

/-- C7 helper: the strict upper triangle of a two-particle system is the
single pair `(0, 1)`. -/
theorem triuPairs_two : triuPairs 2 = {((0 : Fin 2), (1 : Fin 2))} := by decide

/-- Energy of the two-particle line configuration `(0), (1)`. -/
theorem energy_xLine : energy_fn 2 1 xLine = 2 := by
  unfold energy_fn sqNorm pairDist xLine
  rw [triuPairs_two, Finset.sum_singleton]
  simp [Fin.sum_univ_two, Fin.sum_univ_one]
  norm_num [Real.sqrt_one]

/-- Energy of the translated two-particle line configuration `(1), (2)`. -/
theorem energy_xLine_shift : energy_fn 2 1 (fun i d => xLine i d + 1) = 6 := by
  unfold energy_fn sqNorm pairDist xLine
  rw [triuPairs_two, Finset.sum_singleton]
  simp [Fin.sum_univ_two, Fin.sum_univ_one]
  norm_num [Real.sqrt_one]

/-- C7: the energy evaluator is invariant under every permutation of the
particle ordering, and it is not invariant under global translation:
shifting every particle of the two-particle line configuration by the
nonzero vector `(1)` changes the energy. -/
theorem energy_fn_perm_invariant_translation_sensitive :
    (∀ (n dim : ℕ) (x : Config n dim) (σ : Equiv.Perm (Fin n)),
        energy_fn n dim (fun i => x (σ i)) = energy_fn n dim x)
    ∧ ∃ (n dim : ℕ) (x : Config n dim) (t : Fin dim → ℝ),
        (∃ d, t d ≠ 0)
        ∧ energy_fn n dim (fun i d => x i d + t d) ≠ energy_fn n dim x := by
  constructor
  · intro n dim x σ
    have key : ∀ y : Config n dim,
        energy_fn n dim y
          = sqNorm y
            + (∑ p ∈ (Finset.univ : Finset (Fin n)).offDiag,
                1 / pairDist y p.1 p.2) / 2 := by
      intro y
      have h := interaction_eq_half_offDiag y
      unfold energy_fn
      linarith
    rw [key, key]
    have hsq : sqNorm (fun i => x (σ i)) = sqNorm x := by
      unfold sqNorm
      exact Equiv.sum_comp σ (fun i => ∑ d, (x i d) ^ 2)
    rw [hsq, offDiag_sum_perm x σ]
  · refine ⟨2, 1, xLine, fun _ => 1, ⟨0, one_ne_zero⟩, ?_⟩
    rw [energy_xLine, energy_xLine_shift]
    norm_num

/-- Embeds `energy_fn` over `ℝ≥0∞`, whose arithmetic (`1 / 0 = ⊤`,
`a + ⊤ = ⊤`) mirrors how IEEE-754 float64 evaluates the same
expression when a pairwise distance is exactly zero: the division
produces `+inf` and the sums propagate it unclamped. All terms of the
energy are nonnegative, so this embedding is faithful for the
division-by-zero branch. -/
def energyE (n dim : ℕ) (x : Config n dim) : ENNReal :=
  ENNReal.ofReal (sqNorm x)
    + ∑ p ∈ triuPairs n, 1 / ENNReal.ofReal (pairDist x p.1 p.2)

/-- Coincident particles have distance exactly zero. -/
theorem pairDist_eq_zero_of_coincident {n dim : ℕ} (x : Config n dim)
    (a b : Fin n) (h : ∀ d, x a d = x b d) : pairDist x a b = 0 := by
  unfold pairDist
  have hz : ∑ d, (x a d - x b d) ^ 2 = 0 :=
    Finset.sum_eq_zero fun d _ => by rw [h d]; ring
  rw [hz, Real.sqrt_zero]

/-- C9: evaluating the energy of a configuration with two coincident
particles returns, with no exceptional control flow, the IEEE
division-by-zero value: the interaction term divides by a zero distance
and the resulting infinity propagates unclamped through both sums. -/
theorem energyE_coincident (n dim : ℕ) (x : Config n dim) (i j : Fin n)
    (hne : i ≠ j) (hco : ∀ d, x i d = x j d) : energyE n dim x = ⊤ := by
  have hterm : ∀ a b : Fin n, (∀ d, x a d = x b d) →
      1 / ENNReal.ofReal (pairDist x a b) = ⊤ := by
    intro a b h
    rw [pairDist_eq_zero_of_coincident x a b h, ENNReal.ofReal_zero]
    exact ENNReal.div_zero one_ne_zero
  have hsum : ∑ p ∈ triuPairs n, 1 / ENNReal.ofReal (pairDist x p.1 p.2) = ⊤ := by
    rw [ENNReal.sum_eq_top]
    rcases lt_or_gt_of_ne hne with h | h
    · exact ⟨(i, j), mem_triuPairs.mpr h, hterm i j hco⟩
    · exact ⟨(j, i), mem_triuPairs.mpr h, hterm j i fun d => (hco d).symm⟩
  unfold energyE
  rw [hsum]
  exact add_top _

/-- Witness for C9 at the concrete configuration of two particles both
at the origin of the line. -/
theorem energyE_coincident_witness : energyE 2 1 (fun _ _ => (0 : ℝ)) = ⊤ :=
  energyE_coincident 2 1 (fun _ _ => (0 : ℝ)) 0 1 (by decide) (fun _ => rfl)

/-- Embeds `jax.scipy.stats.norm.logpdf` for a single coordinate: the
standard-normal log-density `-t²/2 - log √(2π)`. -/
def normLogpdf (t : ℝ) : ℝ := -(t ^ 2) / 2 - Real.log (Real.sqrt (2 * Real.pi))

/-- The tuple `(logpx, logqz, logjacdet, x)` returned by `logp` inside
`make_logp`. -/
structure DensityReport (n dim : ℕ) where
  logpx : ℝ
  logqz : ℝ
  logjacdet : ℝ
  x : Config n dim

/-- Embeds `make_logp(flow)`'s inner `logp(z, params)`. The coordinate
map (`flow.apply`, a haiku MLP), forward-mode differentiation
(`jax.jacfwd`) and the sign/log-magnitude determinant factorization
(`jnp.linalg.slogdet`, returning a sign and a log-magnitude) are
external collaborators, taken as function parameters. Flattening an
`(n, dim)` array to length `n*dim` is embedded by indexing the
flattened vector and the Jacobian matrix with `Fin n × Fin dim`. -/
def make_logp {P : Type} (n dim : ℕ)
    (flowApply : P → Config n dim → Config n dim)
    (jacfwd : (Config n dim → Config n dim) → Config n dim
      → Matrix (Fin n × Fin dim) (Fin n × Fin dim) ℝ)
    (slogdet : Matrix (Fin n × Fin dim) (Fin n × Fin dim) ℝ → ℝ × ℝ)
    (z : Config n dim) (params : P) : DensityReport n dim :=
  let x := flowApply params z
  let logqz := ∑ i, ∑ d, normLogpdf (z i d)
  let jac := jacfwd (fun w => flowApply params w) z
  let logjacdet := (slogdet jac).2
  ⟨logqz - logjacdet, logqz, logjacdet, x⟩

/-- C2: the density report returned by `make_logp` has `logqz` equal to
the sum over all `n*dim` coordinates of the standard-normal log-density
of `z`, `logjacdet` equal to the log-magnitude component of the
sign/log-magnitude factorization of the Jacobian of the flattened
coordinate map at `z`, and satisfies `logpx = logqz - logjacdet` as a
definitional identity. -/
theorem make_logp_spec {P : Type} (n dim : ℕ)
    (flowApply : P → Config n dim → Config n dim)
    (jacfwd : (Config n dim → Config n dim) → Config n dim
      → Matrix (Fin n × Fin dim) (Fin n × Fin dim) ℝ)
    (slogdet : Matrix (Fin n × Fin dim) (Fin n × Fin dim) ℝ → ℝ × ℝ)
    (z : Config n dim) (params : P) :
    (make_logp n dim flowApply jacfwd slogdet z params).logqz
        = ∑ i, ∑ d, normLogpdf (z i d)
      ∧ (make_logp n dim flowApply jacfwd slogdet z params).logjacdet
        = (slogdet (jacfwd (fun w => flowApply params w) z)).2
      ∧ (make_logp n dim flowApply jacfwd slogdet z params).logpx
        = (make_logp n dim flowApply jacfwd slogdet z params).logqz
          - (make_logp n dim flowApply jacfwd slogdet z params).logjacdet
      ∧ (make_logp n dim flowApply jacfwd slogdet z params).x
        = flowApply params z :=
  ⟨rfl, rfl, rfl, rfl⟩

/-- Embeds `logp = jax.vmap(logp_novmap, (0, None), (0, 0, 0, 0))`: the
batched density evaluation, returning the four per-sample arrays. -/
def logpBatch {P : Type} (n dim B : ℕ)
    (flowApply : P → Config n dim → Config n dim)
    (jacfwd : (Config n dim → Config n dim) → Config n dim
      → Matrix (Fin n × Fin dim) (Fin n × Fin dim) ℝ)
    (slogdet : Matrix (Fin n × Fin dim) (Fin n × Fin dim) ℝ → ℝ × ℝ)
    (z : Fin B → Config n dim) (params : P) :
    (Fin B → ℝ) × (Fin B → ℝ) × (Fin B → ℝ) × (Fin B → Config n dim) :=
  (fun b => (make_logp n dim flowApply jacfwd slogdet (z b) params).logpx,
   fun b => (make_logp n dim flowApply jacfwd slogdet (z b) params).logqz,
   fun b => (make_logp n dim flowApply jacfwd slogdet (z b) params).logjacdet,
   fun b => (make_logp n dim flowApply jacfwd slogdet (z b) params).x)

/-- Embeds `batch_energy = jax.vmap(energy_fn, (0, None, None), 0)`. -/
def batch_energy (n dim B : ℕ) (x : Fin B → Config n dim) : Fin B → ℝ :=
  fun b => energy_fn n dim (x b)

/-- Embeds `v.mean()` for a length-`B` array. -/
def jnpMean (B : ℕ) (v : Fin B → ℝ) : ℝ := (∑ b, v b) / B

/-- Embeds `jnp.std(v)` for a length-`B` array: the (uncorrected,
`ddof = 0`) sample standard deviation. -/
def jnpStd (B : ℕ) (v : Fin B → ℝ) : ℝ :=
  Real.sqrt (jnpMean B (fun b => (v b - jnpMean B v) ^ 2))

/-- The `observable` tuple reported by `observable_and_lossfn`. -/
structure Observable (n dim B : ℕ) where
  F_mean : ℝ
  F_std : ℝ
  E_mean : ℝ
  E_std : ℝ
  S_mean : ℝ
  S_std : ℝ
  x : Fin B → Config n dim

/-- Embeds `make_loss(logp, batch, n, dim, beta)`'s inner
`observable_and_lossfn(params, z)`: one batched density evaluation
produces `logpx`, `logjacdet` and `x`; `Eloc` is the batched energy,
`Floc = logpx / beta + Eloc`; the reported statistics come from `Floc`,
`Eloc` and `-logpx`, and the scalar handed to differentiation is
`jnp.mean(-logjacdet / beta + Eloc)`. -/
def observable_and_lossfn {P : Type} (n dim B : ℕ)
    (logp : (Fin B → Config n dim) → P
      → (Fin B → ℝ) × (Fin B → ℝ) × (Fin B → ℝ) × (Fin B → Config n dim))
    (beta : ℝ) (params : P) (z : Fin B → Config n dim) :
    ℝ × Observable n dim B :=
  let r := logp z params
  let logpx := r.1
  let logjacdet := r.2.2.1
  let x := r.2.2.2
  let Eloc := batch_energy n dim B x
  let Floc := fun b => logpx b / beta + Eloc b
  let obs : Observable n dim B :=
    ⟨jnpMean B Floc, jnpStd B Floc / Real.sqrt B,
     jnpMean B Eloc, jnpStd B Eloc / Real.sqrt B,
     -jnpMean B logpx, jnpStd B (fun b => -logpx b) / Real.sqrt B,
     x⟩
  (jnpMean B (fun b => -logjacdet b / beta + Eloc b), obs)

/-- Means are linear in the summand: a mean of the reduced integrand
differs from the mean of the full integrand by the mean of the dropped
reference term over `beta`. -/
theorem reduced_loss_identity (B : ℕ) (beta : ℝ) (lqz ljd E : Fin B → ℝ) :
    jnpMean B (fun b => -ljd b / beta + E b)
      = jnpMean B (fun b => (lqz b - ljd b) / beta + E b) - jnpMean B lqz / beta := by
  unfold jnpMean
  have key : (∑ b, (-ljd b / beta + E b))
      = (∑ b, ((lqz b - ljd b) / beta + E b)) - (∑ b, lqz b) / beta := by
    calc ∑ b, (-ljd b / beta + E b)
        = ∑ b, (((lqz b - ljd b) / beta + E b) - lqz b / beta) :=
          Finset.sum_congr rfl fun b _ => by ring
      _ = (∑ b, ((lqz b - ljd b) / beta + E b)) - ∑ b, lqz b / beta :=
          Finset.sum_sub_distrib
      _ = (∑ b, ((lqz b - ljd b) / beta + E b)) - (∑ b, lqz b) / beta := by
          rw [← Finset.sum_div]
  rw [key]
  ring

/-- C4: for the composed pipeline, the scalar objective handed to
differentiation is the batch mean of `-logjacdet / beta + Eloc`, the
reported free-energy statistics come from the per-sample
`Floc = logpx / beta + Eloc` of the same single batch evaluation, and
the objective equals the mean of `Floc` minus the batch mean of
`logqz / beta`. -/
theorem observable_and_lossfn_spec {P : Type} (n dim B : ℕ)
    (flowApply : P → Config n dim → Config n dim)
    (jacfwd : (Config n dim → Config n dim) → Config n dim
      → Matrix (Fin n × Fin dim) (Fin n × Fin dim) ℝ)
    (slogdet : Matrix (Fin n × Fin dim) (Fin n × Fin dim) ℝ → ℝ × ℝ)
    (beta : ℝ) (params : P) (z : Fin B → Config n dim) :
    (observable_and_lossfn n dim B
        (logpBatch n dim B flowApply jacfwd slogdet) beta params z).1
        = jnpMean B (fun b =>
            -(logpBatch n dim B flowApply jacfwd slogdet z params).2.2.1 b / beta
              + batch_energy n dim B
                  ((logpBatch n dim B flowApply jacfwd slogdet z params).2.2.2) b)
      ∧ ((observable_and_lossfn n dim B
          (logpBatch n dim B flowApply jacfwd slogdet) beta params z).2).F_mean
        = jnpMean B (fun b =>
            (logpBatch n dim B flowApply jacfwd slogdet z params).1 b / beta
              + batch_energy n dim B
                  ((logpBatch n dim B flowApply jacfwd slogdet z params).2.2.2) b)
      ∧ ((observable_and_lossfn n dim B
          (logpBatch n dim B flowApply jacfwd slogdet) beta params z).2).F_std
        = jnpStd B (fun b =>
            (logpBatch n dim B flowApply jacfwd slogdet z params).1 b / beta
              + batch_energy n dim B
                  ((logpBatch n dim B flowApply jacfwd slogdet z params).2.2.2) b)
            / Real.sqrt B
      ∧ (observable_and_lossfn n dim B
          (logpBatch n dim B flowApply jacfwd slogdet) beta params z).1
        = jnpMean B (fun b =>
            (logpBatch n dim B flowApply jacfwd slogdet z params).1 b / beta
              + batch_energy n dim B
                  ((logpBatch n dim B flowApply jacfwd slogdet z params).2.2.2) b)
          - jnpMean B
              ((logpBatch n dim B flowApply jacfwd slogdet z params).2.1) / beta := by
  refine ⟨rfl, rfl, rfl, ?_⟩
  exact reduced_loss_identity B beta
    ((logpBatch n dim B flowApply jacfwd slogdet z params).2.1)
    ((logpBatch n dim B flowApply jacfwd slogdet z params).2.2.1)
    (batch_energy n dim B
      ((logpBatch n dim B flowApply jacfwd slogdet z params).2.2.2))

/-- C8: each standard error reported by `observable_and_lossfn` is the
(uncorrected) sample standard deviation of the corresponding per-sample
quantity (`Floc`, `Eloc`, `-logpx`) divided by the square root of the
batch size; the standard deviation used is
`sqrt(mean((v - mean v)^2))`. -/
theorem stderr_spec {P : Type} (n dim B : ℕ)
    (logp : (Fin B → Config n dim) → P
      → (Fin B → ℝ) × (Fin B → ℝ) × (Fin B → ℝ) × (Fin B → Config n dim))
    (beta : ℝ) (params : P) (z : Fin B → Config n dim) :
    (∀ v : Fin B → ℝ,
        jnpStd B v = Real.sqrt ((∑ b, (v b - (∑ c, v c) / B) ^ 2) / B))
      ∧ ((observable_and_lossfn n dim B logp beta params z).2).F_std
        = jnpStd B (fun b =>
            (logp z params).1 b / beta
              + batch_energy n dim B ((logp z params).2.2.2) b) / Real.sqrt B
      ∧ ((observable_and_lossfn n dim B logp beta params z).2).E_std
        = jnpStd B (batch_energy n dim B ((logp z params).2.2.2)) / Real.sqrt B
      ∧ ((observable_and_lossfn n dim B logp beta params z).2).S_std
        = jnpStd B (fun b => -(logp z params).1 b) / Real.sqrt B :=
  ⟨fun _ => rfl, rfl, rfl, rfl⟩

/-- Embeds the MCMC notebook's target `logp(beta, x, n, dim)` before
vmapping: the un-normalized Boltzmann log-density `-beta * energy`. -/
def logpBeta (beta : ℝ) (n dim : ℕ) (x : Config n dim) : ℝ :=
  -beta * energy_fn n dim x

/-- Embeds the vmapped `logp` applied to a batch of configurations. -/
def logpBoltzmann (beta : ℝ) (n dim B : ℕ)
    (x : Fin B → Config n dim) : Fin B → ℝ :=
  fun b => logpBeta beta n dim (x b)

/-- The per-chain MCMC state threaded through `jax.lax.fori_loop`:
current positions, current log-density per chain, and the running
acceptance count (a float in the source, initialized to `0.`). The PRNG
key of the source tuple is externalized: the draws it would produce
(proposal noise and acceptance uniforms) are explicit inputs. -/
structure McState (n dim B : ℕ) where
  x : Fin B → Config n dim
  lp : Fin B → ℝ
  na : ℝ

open Classical in
/-- Embeds one iteration of `step` inside `mcmc`: propose
`x + mc_width * normal`, evaluate the batched log-density at the
proposal, accept chain `b` exactly when its uniform draw is strictly
below `exp(logp_proposal - logp)`, and update positions, log-densities
and the acceptance count with `jnp.where`. -/
def mcmcStep {n dim B : ℕ}
    (logp_fn : (Fin B → Config n dim) → Fin B → ℝ) (mc_width : ℝ)
    (noise : Fin B → Config n dim) (unif : Fin B → ℝ)
    (s : McState n dim B) : McState n dim B :=
  let x_proposal : Fin B → Config n dim :=
    fun b i d => s.x b i d + mc_width * noise b i d
  let logp_proposal := logp_fn x_proposal
  let ratio := fun b => Real.exp (logp_proposal b - s.lp b)
  let accept := fun b => unif b < ratio b
  { x := fun b => if accept b then x_proposal b else s.x b,
    lp := fun b => if accept b then logp_proposal b else s.lp b,
    na := s.na + ((Finset.univ.filter fun b => accept b).card : ℝ) }

/-- Embeds `jax.lax.fori_loop(0, mc_steps, step, state)`: the inner
steps applied in order, step `k` consuming the `k`-th pair of random
draws. -/
def mcmcRun {n dim B : ℕ}
    (logp_fn : (Fin B → Config n dim) → Fin B → ℝ) (mc_width : ℝ)
    (noises : ℕ → Fin B → Config n dim) (us : ℕ → Fin B → ℝ) :
    ℕ → McState n dim B → McState n dim B
  | 0, s => s
  | k + 1, s => mcmcStep logp_fn mc_width (noises k) (us k)
      (mcmcRun logp_fn mc_width noises us k s)

/-- Embeds `mcmc(logp_fn, x_init, key, mc_steps, mc_width)`: the initial
log-density is computed from the initial positions before the loop, the
inner loop runs `mc_steps` times, and the reported acceptance rate is
`num_accepts / (mc_steps * batch)`. -/
def mcmc {n dim B : ℕ}
    (logp_fn : (Fin B → Config n dim) → Fin B → ℝ)
    (x_init : Fin B → Config n dim)
    (noises : ℕ → Fin B → Config n dim) (us : ℕ → Fin B → ℝ)
    (mc_steps : ℕ) (mc_width : ℝ) : (Fin B → Config n dim) × ℝ :=
  let s := mcmcRun logp_fn mc_width noises us mc_steps
    ⟨x_init, logp_fn x_init, 0⟩
  (s.x, s.na / (mc_steps * B))

/-- Unfolding of the position update of one Metropolis step. -/
theorem mcmcStep_x {n dim B : ℕ}
    (logp_fn : (Fin B → Config n dim) → Fin B → ℝ) (mc_width : ℝ)
    (noise : Fin B → Config n dim) (unif : Fin B → ℝ)
    (s : McState n dim B) (b : Fin B) :
    (mcmcStep logp_fn mc_width noise unif s).x b
      = if unif b < Real.exp
            (logp_fn (fun c i d => s.x c i d + mc_width * noise c i d) b - s.lp b)
          then (fun i d => s.x b i d + mc_width * noise b i d)
          else s.x b := rfl

/-- Unfolding of the log-density update of one Metropolis step. -/
theorem mcmcStep_lp {n dim B : ℕ}
    (logp_fn : (Fin B → Config n dim) → Fin B → ℝ) (mc_width : ℝ)
    (noise : Fin B → Config n dim) (unif : Fin B → ℝ)
    (s : McState n dim B) (b : Fin B) :
    (mcmcStep logp_fn mc_width noise unif s).lp b
      = if unif b < Real.exp
            (logp_fn (fun c i d => s.x c i d + mc_width * noise c i d) b - s.lp b)
          then logp_fn (fun c i d => s.x c i d + mc_width * noise c i d) b
          else s.lp b := rfl

/-- The batched Boltzmann log-density acts chain by chain. -/
theorem logpBoltzmann_apply (beta : ℝ) (n dim B : ℕ)
    (x : Fin B → Config n dim) (b : Fin B) :
    logpBoltzmann beta n dim B x b = logpBeta beta n dim (x b) := rfl

/-- C3: in one Metropolis step on the Boltzmann target, chain `b`
accepts exactly when its uniform draw is strictly below
`exp(logp_proposal - logp)`: an accepting chain adopts the proposal
positions and the proposal log-density, a rejecting chain retains both
unchanged, a ratio of at least `1` forces acceptance whenever the
uniform draw is below `1`, and the outcome at chain `b` depends only on
chain `b`'s own positions, log-density and random draws. -/
theorem mcmcStep_metropolis (beta mc_width : ℝ) (n dim B : ℕ)
    (noise : Fin B → Config n dim) (unif : Fin B → ℝ)
    (s t : McState n dim B) (b : Fin B) :
    (unif b < Real.exp (logpBeta beta n dim
          (fun i d => s.x b i d + mc_width * noise b i d) - s.lp b) →
        (mcmcStep (logpBoltzmann beta n dim B) mc_width noise unif s).x b
            = (fun i d => s.x b i d + mc_width * noise b i d)
          ∧ (mcmcStep (logpBoltzmann beta n dim B) mc_width noise unif s).lp b
            = logpBeta beta n dim (fun i d => s.x b i d + mc_width * noise b i d))
      ∧ (¬ unif b < Real.exp (logpBeta beta n dim
          (fun i d => s.x b i d + mc_width * noise b i d) - s.lp b) →
        (mcmcStep (logpBoltzmann beta n dim B) mc_width noise unif s).x b = s.x b
          ∧ (mcmcStep (logpBoltzmann beta n dim B) mc_width noise unif s).lp b
            = s.lp b)
      ∧ (unif b < 1 →
         1 ≤ Real.exp (logpBeta beta n dim
          (fun i d => s.x b i d + mc_width * noise b i d) - s.lp b) →
        (mcmcStep (logpBoltzmann beta n dim B) mc_width noise unif s).x b
            = (fun i d => s.x b i d + mc_width * noise b i d)
          ∧ (mcmcStep (logpBoltzmann beta n dim B) mc_width noise unif s).lp b
            = logpBeta beta n dim (fun i d => s.x b i d + mc_width * noise b i d))
      ∧ (s.x b = t.x b → s.lp b = t.lp b →
        (mcmcStep (logpBoltzmann beta n dim B) mc_width noise unif s).x b
            = (mcmcStep (logpBoltzmann beta n dim B) mc_width noise unif t).x b
          ∧ (mcmcStep (logpBoltzmann beta n dim B) mc_width noise unif s).lp b
            = (mcmcStep (logpBoltzmann beta n dim B) mc_width noise unif t).lp b) := by
  have haccept : ∀ h : unif b < Real.exp (logpBeta beta n dim
      (fun i d => s.x b i d + mc_width * noise b i d) - s.lp b),
      (mcmcStep (logpBoltzmann beta n dim B) mc_width noise unif s).x b
          = (fun i d => s.x b i d + mc_width * noise b i d)
        ∧ (mcmcStep (logpBoltzmann beta n dim B) mc_width noise unif s).lp b
          = logpBeta beta n dim (fun i d => s.x b i d + mc_width * noise b i d) := by
    intro h
    rw [mcmcStep_x, mcmcStep_lp]
    exact ⟨if_pos h, if_pos h⟩
  refine ⟨haccept, ?_, ?_, ?_⟩
  · intro h
    rw [mcmcStep_x, mcmcStep_lp]
    exact ⟨if_neg h, if_neg h⟩
  · intro h1 hge
    exact haccept (lt_of_lt_of_le h1 hge)
  · intro hx hlp
    rw [mcmcStep_x, mcmcStep_lp, mcmcStep_x, mcmcStep_lp,
      logpBoltzmann_apply, logpBoltzmann_apply]
    simp only [hx, hlp]
    exact ⟨trivial, trivial⟩

/-- Witness for C3 at a concrete one-chain, one-particle instance:
an always-accepting draw adopts the proposal log-density, a draw of `1`
against an acceptance ratio of `1` rejects and retains the prior
log-density, a ratio of at least `1` accepts a draw below `1`, and the
outcome is unchanged when the step is run from an identical state. -/
theorem mcmcStep_metropolis_witness :
    (mcmcStep (logpBoltzmann 0 1 1 1) 0 (fun _ _ _ => 0) (fun _ => 0)
        ⟨fun _ _ _ => 0, fun _ => 0, 0⟩).lp 0
        = logpBeta 0 1 1 (fun _ _ => (0 : ℝ) + 0 * 0)
      ∧ (mcmcStep (logpBoltzmann 0 1 1 1) 0 (fun _ _ _ => 0) (fun _ => 1)
        ⟨fun _ _ _ => 0, fun _ => 0, 0⟩).lp 0 = 0
      ∧ (mcmcStep (logpBoltzmann 0 1 1 1) 0 (fun _ _ _ => 0) (fun _ => 0)
        ⟨fun _ _ _ => 0, fun _ => 0, 0⟩).x 0
        = (fun _ _ => (0 : ℝ) + 0 * 0)
      ∧ (mcmcStep (logpBoltzmann 0 1 1 1) 0 (fun _ _ _ => 0) (fun _ => 0)
        ⟨fun _ _ _ => 0, fun _ => 0, 0⟩).x 0
        = (mcmcStep (logpBoltzmann 0 1 1 1) 0 (fun _ _ _ => 0) (fun _ => 0)
        ⟨fun _ _ _ => 0, fun _ => 0, 0⟩).x 0 := by
  refine ⟨((mcmcStep_metropolis 0 0 1 1 1 (fun _ _ _ => 0) (fun _ => 0)
      ⟨fun _ _ _ => 0, fun _ => 0, 0⟩ ⟨fun _ _ _ => 0, fun _ => 0, 0⟩ 0).1
      (Real.exp_pos _)).2, ?_, ?_, ?_⟩
  · refine ((mcmcStep_metropolis 0 0 1 1 1 (fun _ _ _ => 0) (fun _ => 1)
      ⟨fun _ _ _ => 0, fun _ => 0, 0⟩ ⟨fun _ _ _ => 0, fun _ => 0, 0⟩ 0).2.1 ?_).2
    show ¬ (1 : ℝ) < Real.exp
      (logpBeta 0 1 1 (fun _ _ => (0 : ℝ) + 0 * 0) - 0)
    rw [show (logpBeta 0 1 1 (fun _ _ => (0 : ℝ) + 0 * 0) - 0 : ℝ) = 0 from by
      unfold logpBeta; ring, Real.exp_zero]
    exact lt_irrefl 1
  · refine ((mcmcStep_metropolis 0 0 1 1 1 (fun _ _ _ => 0) (fun _ => 0)
      ⟨fun _ _ _ => 0, fun _ => 0, 0⟩ ⟨fun _ _ _ => 0, fun _ => 0, 0⟩ 0).2.2.1
      (by norm_num) ?_).1
    show (1 : ℝ) ≤ Real.exp
      (logpBeta 0 1 1 (fun _ _ => (0 : ℝ) + 0 * 0) - 0)
    rw [show (logpBeta 0 1 1 (fun _ _ => (0 : ℝ) + 0 * 0) - 0 : ℝ) = 0 from by
      unfold logpBeta; ring, Real.exp_zero]
  · exact ((mcmcStep_metropolis 0 0 1 1 1 (fun _ _ _ => 0) (fun _ => 0)
      ⟨fun _ _ _ => 0, fun _ => 0, 0⟩ ⟨fun _ _ _ => 0, fun _ => 0, 0⟩ 0).2.2.2
      rfl rfl).1

/-- A Metropolis step on the Boltzmann target preserves the invariant
that the stored per-chain log-density is the target log-density of the
stored positions. -/
theorem mcmcStep_preserves_invariant (beta mc_width : ℝ) (n dim B : ℕ)
    (noise : Fin B → Config n dim) (unif : Fin B → ℝ) (s : McState n dim B)
    (hs : ∀ b, s.lp b = logpBeta beta n dim (s.x b)) (b : Fin B) :
    (mcmcStep (logpBoltzmann beta n dim B) mc_width noise unif s).lp b
      = logpBeta beta n dim
          ((mcmcStep (logpBoltzmann beta n dim B) mc_width noise unif s).x b) := by
  rw [mcmcStep_x, mcmcStep_lp]
  by_cases h : unif b < Real.exp
      (logpBoltzmann beta n dim B
        (fun c i d => s.x c i d + mc_width * noise c i d) b - s.lp b)
  · rw [if_pos h, if_pos h]
    rfl
  · rw [if_neg h, if_neg h]
    exact hs b

/-- C10: along the whole inner loop of `mcmc` on the Boltzmann target,
started from the state whose log-density is computed from the initial
positions before the loop, every chain's stored log-density equals the
target log-density (`-beta` times the energy) of its stored positions,
after every number of inner steps. -/
theorem mcmc_logdensity_invariant (beta mc_width : ℝ) (n dim B : ℕ)
    (noises : ℕ → Fin B → Config n dim) (us : ℕ → Fin B → ℝ)
    (x_init : Fin B → Config n dim) (k : ℕ) (b : Fin B) :
    (mcmcRun (logpBoltzmann beta n dim B) mc_width noises us k
        ⟨x_init, logpBoltzmann beta n dim B x_init, 0⟩).lp b
      = logpBeta beta n dim
          ((mcmcRun (logpBoltzmann beta n dim B) mc_width noises us k
            ⟨x_init, logpBoltzmann beta n dim B x_init, 0⟩).x b) := by
  induction k generalizing b with
  | zero => rfl
  | succ k ih =>
      exact mcmcStep_preserves_invariant beta mc_width n dim B
        (noises k) (us k) _ (fun c => ih c) b

/-- Embeds the MCMC driver's between-iteration width adaptation, two
sequential conditionals applied after each outer iteration:
`if acc > 0.525: mc_width *= 1.05` then `if acc < 0.475: mc_width *= 0.95`.
The literals are exact decimals, embedded over `ℚ`. -/
def updateWidth (acc w : ℚ) : ℚ :=
  let w1 := if acc > 0.525 then w * 1.05 else w
  if acc < 0.475 then w1 * 0.95 else w1

/-- The compounding width trace over a sequence of per-iteration
acceptance rates, starting from a given width: each outer iteration
applies `updateWidth` once, between iterations. -/
def widthTrace : List ℚ → ℚ → List ℚ
  | [], _ => []
  | a :: rest, w =>
      let w' := updateWidth a w
      w' :: widthTrace rest w'

/-- C5: the width controller multiplies by `1.05` exactly when the
acceptance rate exceeds `0.525`, by `0.95` exactly when it is below
`0.475`, leaves the width unchanged in between, and on the rate
sequence `[0.6, 0.6, 0.4, 0.4, 0.5]` from width `1` reproduces the
compounding trace `[1.05, 1.1025, 1.047375, 0.99500625, 0.99500625]`
(multipliers `[1.05, 1.05, 0.95, 0.95, 1]` in order). -/
theorem updateWidth_spec :
    (∀ acc w : ℚ, 0.525 < acc → updateWidth acc w = w * 1.05)
      ∧ (∀ acc w : ℚ, acc < 0.475 → updateWidth acc w = w * 0.95)
      ∧ (∀ acc w : ℚ, 0.475 ≤ acc → acc ≤ 0.525 → updateWidth acc w = w)
      ∧ widthTrace [0.6, 0.6, 0.4, 0.4, 0.5] 1
        = [1.05, 1.1025, 1.047375, 0.99500625, 0.99500625] := by
  refine ⟨?_, ?_, ?_, by norm_num [widthTrace, updateWidth]⟩
  · intro acc w h
    simp only [updateWidth]
    rw [if_pos h, if_neg (show ¬ acc < 0.475 by linarith)]
  · intro acc w h
    simp only [updateWidth]
    rw [if_pos h, if_neg (show ¬ acc > 0.525 by linarith)]
  · intro acc w h1 h2
    simp only [updateWidth]
    rw [if_neg (show ¬ acc < 0.475 by linarith),
      if_neg (show ¬ acc > 0.525 by linarith)]

/-- Witness for C5: the three controller branches at concrete rates. -/
theorem updateWidth_spec_witness :
    updateWidth 0.6 1 = 1 * 1.05
      ∧ updateWidth 0.4 1 = 1 * 0.95
      ∧ updateWidth 0.5 1 = 1 :=
  ⟨updateWidth_spec.1 0.6 1 (by norm_num),
   updateWidth_spec.2.1 0.4 1 (by norm_num),
   updateWidth_spec.2.2.1 0.5 1 (by norm_num) (by norm_num)⟩

/-- Modelled collaborator `jax.random.split`: keys of the splittable
PRNG are modelled as paths in the binary split tree, so that the two
results of a split are distinct fresh keys extending the input key. -/
abbrev Key : Type := List Bool

/-- One split step: the pair of child keys of `k`. -/
def splitKey (k : Key) : Key × Key :=
  (false :: k, true :: k)

/-- Embeds the training loop's key threading: each iteration runs
`key, subkey = jax.random.split(key)`, carrying the first child to the
next iteration. `carriedKey seed i` is the carried key entering
iteration `i`. -/
def carriedKey (seed : Key) : ℕ → Key
  | 0 => seed
  | i + 1 => (splitKey (carriedKey seed i)).1

/-- The key consumed by iteration `i`'s latent draw
`z = jax.random.normal(key, (batch, n, dim))`: the loop draws with the
freshly updated carried key. -/
def drawKey (seed : Key) (i : ℕ) : Key := carriedKey seed (i + 1)

/-- The carried key after `i` iterations is the seed prefixed by `i`
first-child moves. -/
theorem carriedKey_eq (seed : Key) (i : ℕ) :
    carriedKey seed i = List.replicate i false ++ seed := by
  induction i with
  | zero => rfl
  | succ i ih =>
      show List.cons false (carriedKey seed i) = _
      rw [ih, List.replicate_succ]
      rfl

/-- Partial properties of the training loop's key threading that do
hold: every latent draw's key is a pure function of the declared seed
and the iteration index, and keys of distinct iterations are distinct. -/
theorem drawKey_spec :
    (∀ (seed : Key) (i : ℕ),
        drawKey seed i = List.replicate (i + 1) false ++ seed)
      ∧ ∀ (seed : Key) (i j : ℕ), i ≠ j → drawKey seed i ≠ drawKey seed j := by
  constructor
  · intro seed i
    exact carriedKey_eq seed (i + 1)
  · intro seed i j hne hEq
    have hlen : (List.replicate (i + 1) false ++ seed).length
        = (List.replicate (j + 1) false ++ seed).length := by
      rw [← carriedKey_eq, ← carriedKey_eq]
      exact congrArg List.length hEq
    simp only [List.length_append, List.length_replicate] at hlen
    omega

/-- Concrete instance of `drawKey_spec` at the empty seed and
iterations `0` and `1`. -/
theorem drawKey_spec_example :
    drawKey [] 0 = List.replicate 1 false ++ []
      ∧ drawKey [] 0 ≠ drawKey [] 1 :=
  ⟨drawKey_spec.1 [] 0, drawKey_spec.2 [] 0 1 (by decide)⟩

/-- C6: the training loop's random-state discipline is broken. The loop
runs `key, subkey = jax.random.split(key)` and then draws its latent
batch with `key`, never using `subkey`: the key consumed by iteration
`i`'s latent draw is identical to the key iteration `i + 1` feeds back
into `split`, so one key is consumed by two stochastic decisions (a
latent draw and the next iteration's substream derivation), contrary to
the claimed single-use, fresh-substream key discipline. -/
theorem drawKey_consumed_twice :
    (∀ (seed : Key) (i : ℕ), drawKey seed i = carriedKey seed (i + 1))
      ∧ drawKey [] 0 = carriedKey [] 1
      ∧ drawKey [] 0 = [false]
      ∧ splitKey (drawKey [] 0) = splitKey (carriedKey [] 1) :=
  ⟨fun _ _ => rfl, rfl, rfl, rfl⟩
